import Mathlib

/-!
Verification of the VirtualTree virtualized tree rendering engine
(src/components/VirtualTree/index.jsx and src/components/VirtualTree/TreeNode.jsx).

The engine's pure core is embedded shallowly:
* the caller-supplied tree snapshot is a mutual inductive `TreeNode`/`TreeList`
  (children arrays become `TreeList` so that all recursions are structural and
  kernel-reducible);
* `ExpansionState` is a `Finset (Option String)` (a JS `Set` that may hold
  `undefined`, modelled as `none`, when a caller node lacks a `key`);
* pixel sizes and scroll offsets are `Nat` (they are non-negative integers in
  every property verified here), except the drag-over quartile classification
  where exact rationals stand in for the DOM's fractional coordinates;
* React state updates become explicit state-passing, and callbacks
  (`onNodeExpand`, `onDrop`) become returned notification values.
-/

namespace VTree

mutual
/-- Caller-owned tree node (index.jsx `data` prop): `key` (absent = JS
`undefined`, modelled `none`) and ordered `children`.  `title`/`icon`/`extra`
are display-only decorations and play no role in any verified property. -/
inductive TreeNode where
  | mk (key : Option String) (children : TreeList)
deriving Repr, DecidableEq
/-- Ordered children array of a `TreeNode`. -/
inductive TreeList where
  | nil
  | cons (head : TreeNode) (tail : TreeList)
deriving Repr, DecidableEq
end

def TreeNode.key : TreeNode → Option String
  | .mk k _ => k

def TreeNode.children : TreeNode → TreeList
  | .mk _ cs => cs

/-- JS `node.children.length > 0` test, negated: true iff the array is empty. -/
def TreeList.isEmpty : TreeList → Bool
  | .nil => true
  | .cons _ _ => false

/-- ExpansionState: the `expandedKeys` JS `Set` (index.jsx line 14).  Elements
are `Option String` because `getAllKeys` pushes the raw `node.key`, which is
`undefined` for a key-less branch node. -/
abbrev ExpansionState := Finset (Option String)

/-- FlattenedRow: the object pushed by `flattenTree` (index.jsx 59-66),
restricted to the attributes the verified properties mention. -/
structure FlatRow where
  key : String
  level : Nat
  parentKey : Option String
  hasChildren : Bool
  isExpanded : Bool
deriving Repr, DecidableEq

/-- JS template-literal rendering of the parent key in `` `${parentKey}-${index}` ``:
`null` prints as the string "null". -/
def showParentKey : Option String → String
  | none => "null"
  | some s => s

/-- The synthesized fallback key `` `${parentKey}-${index}` `` of index.jsx line 58. -/
def synthKey (parentKey : Option String) (index : Nat) : String :=
  showParentKey parentKey ++ "-" ++ toString index

/-- JS `node.key || synthesized` (index.jsx line 58): both `undefined` and the
empty string are falsy and select the synthesized key. -/
def jsKeyOr (k : Option String) (parentKey : Option String) (index : Nat) : String :=
  match k with
  | none => synthKey parentKey index
  | some s => if s = "" then synthKey parentKey index else s

/-- flattenTree (index.jsx 54-76): depth-first pre-order flattening.  The last
`Nat` argument is the `forEach` sibling index.  A node's row is emitted, then
(only when `item.hasChildren && item.isExpanded`) its children's rows, then the
remaining siblings' rows. -/
def flattenTree (ex : ExpansionState) : TreeList → Nat → Option String → Nat → List FlatRow
  | .nil, _, _, _ => []
  | .cons (TreeNode.mk k cs) rest, level, parentKey, index =>
    ⟨jsKeyOr k parentKey index, level, parentKey, !cs.isEmpty,
        decide (some (jsKeyOr k parentKey index) ∈ ex)⟩
      :: ((if !cs.isEmpty && decide (some (jsKeyOr k parentKey index) ∈ ex)
            then flattenTree ex cs (level + 1) (some (jsKeyOr k parentKey index)) 0
            else [])
          ++ flattenTree ex rest level parentKey (index + 1))

/-- Specification-side reachability: the row for a node is reachable at
(forest, level, parentKey, index) exactly when the node is found by descending
only through expanded branch nodes; the row carries the node's synthesized key,
depth, parentKey, hasChildren and isExpanded attributes. -/
inductive ReachableRow (ex : ExpansionState) :
    TreeList → Nat → Option String → Nat → FlatRow → Prop where
  | here (k : Option String) (cs rest : TreeList) (level : Nat)
      (pk : Option String) (idx : Nat) :
      ReachableRow ex (.cons (TreeNode.mk k cs) rest) level pk idx
        ⟨jsKeyOr k pk idx, level, pk, !cs.isEmpty, decide (some (jsKeyOr k pk idx) ∈ ex)⟩
  | inChildren (k : Option String) (cs rest : TreeList) (level : Nat)
      (pk : Option String) (idx : Nat) (r : FlatRow) :
      cs.isEmpty = false → some (jsKeyOr k pk idx) ∈ ex →
      ReachableRow ex cs (level + 1) (some (jsKeyOr k pk idx)) 0 r →
      ReachableRow ex (.cons (TreeNode.mk k cs) rest) level pk idx r
  | inRest (n : TreeNode) (rest : TreeList) (level : Nat)
      (pk : Option String) (idx : Nat) (r : FlatRow) :
      ReachableRow ex rest level pk (idx + 1) r →
      ReachableRow ex (.cons n rest) level pk idx r

/-- All node keys of the forest in pre-order (every node, raw `key` field). -/
def allNodeKeys : TreeList → List (Option String)
  | .nil => []
  | .cons (TreeNode.mk k cs) rest => k :: (allNodeKeys cs ++ allNodeKeys rest)

/-- Every node of the forest carries a present, non-empty (hence non-falsy) key. -/
def allKeysPresent : TreeList → Bool
  | .nil => true
  | .cons (TreeNode.mk k cs) rest =>
    (match k with
     | some s => decide (s ≠ "")
     | none => false) && (allKeysPresent cs && allKeysPresent rest)

/-- The spec scenario tree `A[B[], C[D[]]]`. -/
def demoTree : TreeList :=
  .cons (.mk (some "A") (.cons (.mk (some "B") .nil) .nil))
    (.cons (.mk (some "C") (.cons (.mk (some "D") .nil) .nil)) .nil)

/-- The spec scenario expansion state: only C expanded. -/
def demoExpanded : ExpansionState := {some "C"}

theorem mem_flattenTree_iff (ex : ExpansionState) :
    ∀ (t : TreeList) (level : Nat) (pk : Option String) (idx : Nat) (r : FlatRow),
      r ∈ flattenTree ex t level pk idx ↔ ReachableRow ex t level pk idx r
  | .nil, level, pk, idx, r => by
    simp only [flattenTree, List.not_mem_nil, false_iff]
    intro h
    cases h
  | .cons (TreeNode.mk k cs) rest, level, pk, idx, r => by
    have ihc := mem_flattenTree_iff ex cs (level + 1) (some (jsKeyOr k pk idx)) 0 r
    have ihr := mem_flattenTree_iff ex rest level pk (idx + 1) r
    simp only [flattenTree, List.mem_cons, List.mem_append]
    constructor
    · rintro (hr | hr | hr)
      · exact hr ▸ ReachableRow.here k cs rest level pk idx
      · by_cases hcond : (!cs.isEmpty && decide (some (jsKeyOr k pk idx) ∈ ex)) = true
        · rw [if_pos hcond] at hr
          rcases Bool.and_eq_true_iff.mp hcond with ⟨h1, h2⟩
          exact ReachableRow.inChildren k cs rest level pk idx r
            (by cases hb : cs.isEmpty <;> simp [hb] at h1 ⊢) (of_decide_eq_true h2)
            (ihc.mp hr)
        · rw [if_neg hcond] at hr
          exact absurd hr (List.not_mem_nil r)
      · exact ReachableRow.inRest _ rest level pk idx r (ihr.mp hr)
    · intro h
      cases h with
      | here => exact Or.inl rfl
      | inChildren _ _ _ _ _ _ _ h1 h2 h3 =>
        refine Or.inr (Or.inl ?_)
        rw [if_pos (by simp [h1, h2])]
        exact ihc.mpr h3
      | inRest _ _ _ _ _ _ h1 => exact Or.inr (Or.inr (ihr.mpr h1))

theorem flattenTree_keys_sublist (ex : ExpansionState) :
    ∀ (t : TreeList) (level : Nat) (pk : Option String) (idx : Nat),
      allKeysPresent t = true →
      ((flattenTree ex t level pk idx).map (fun r => some r.key)).Sublist (allNodeKeys t)
  | .nil, _, _, _, _ => by simp [flattenTree, allNodeKeys]
  | .cons (TreeNode.mk k cs) rest, level, pk, idx, hp => by
    rcases k with _ | s
    · simp [allKeysPresent] at hp
    simp only [allKeysPresent, Bool.and_eq_true, decide_eq_true_eq] at hp
    obtain ⟨hs, hpc, hpr⟩ := hp
    have hkey : jsKeyOr (some s) pk idx = s := by simp [jsKeyOr, hs]
    have ihc := flattenTree_keys_sublist ex cs (level + 1) (some (jsKeyOr (some s) pk idx)) 0 hpc
    have ihr := flattenTree_keys_sublist ex rest level pk (idx + 1) hpr
    rw [hkey] at ihc
    simp only [flattenTree, allNodeKeys, List.map_cons, List.map_append, hkey]
    refine List.Sublist.cons₂ _ (List.Sublist.append ?_ ihr)
    by_cases hcond : (!cs.isEmpty && decide (some s ∈ ex)) = true
    · rw [if_pos hcond]
      exact ihc
    · rw [if_neg hcond]
      simp

/-- C1: for every tree snapshot and ExpansionState, flattenTree produces
exactly the rows reachable by descending only through expanded branch nodes
(membership characterization), each exactly once (distinct keys whenever the
caller honours the key-presence/uniqueness contract), in depth-first pre-order
(a node's row precedes its children's rows, which precede the remaining
siblings' rows), each row carrying depth, parentKey, hasChildren and
isExpanded; in particular flattening `A[B[], C[D[]]]` with only C expanded
yields `[A at depth 0, C at depth 0, D at depth 1]` and B is excluded. -/
theorem flattenTree_spec (ex : ExpansionState) (t : TreeList) :
    (∀ r : FlatRow, r ∈ flattenTree ex t 0 none 0 ↔ ReachableRow ex t 0 none 0 r)
    ∧ (allKeysPresent t = true → (allNodeKeys t).Nodup →
        ((flattenTree ex t 0 none 0).map FlatRow.key).Nodup)
    ∧ (∀ (k : Option String) (cs rest : TreeList) (level : Nat) (pk : Option String) (idx : Nat),
        flattenTree ex (.cons (TreeNode.mk k cs) rest) level pk idx =
          ⟨jsKeyOr k pk idx, level, pk, !cs.isEmpty, decide (some (jsKeyOr k pk idx) ∈ ex)⟩
            :: ((if !cs.isEmpty && decide (some (jsKeyOr k pk idx) ∈ ex)
                  then flattenTree ex cs (level + 1) (some (jsKeyOr k pk idx)) 0
                  else [])
                ++ flattenTree ex rest level pk (idx + 1)))
    ∧ flattenTree demoExpanded demoTree 0 none 0 =
        [⟨"A", 0, none, true, false⟩, ⟨"C", 0, none, true, true⟩,
          ⟨"D", 1, some "C", false, false⟩] := by
  refine ⟨fun r => mem_flattenTree_iff ex t 0 none 0 r, fun hp hnd => ?_,
    fun _ _ _ _ _ _ => rfl, by decide⟩
  have hs := flattenTree_keys_sublist ex t 0 none 0 hp
  have h1 : ((flattenTree ex t 0 none 0).map (fun r => some r.key)).Nodup := hnd.sublist hs
  have h2 : ((flattenTree ex t 0 none 0).map FlatRow.key).map some =
      (flattenTree ex t 0 none 0).map (fun r => some r.key) := by
    simp [List.map_map]
  exact List.Nodup.of_map some (h2 ▸ h1)

/-- Witness for C1 at the spec scenario tree with only C expanded. -/
theorem flattenTree_spec_witness :
    allKeysPresent demoTree = true ∧ (allNodeKeys demoTree).Nodup
    ∧ ((flattenTree demoExpanded demoTree 0 none 0).map FlatRow.key).Nodup :=
  ⟨by decide, by decide, (flattenTree_spec demoExpanded demoTree).2.1 (by decide) (by decide)⟩

/-- C10: a node whose own key is absent (`undefined`) or falsy (the empty
string) gets the synthesized key `` `${parentKey}-${index}` `` (the JS template
renders a null parentKey as "null"), and that synthesized key is what the row
carries, what the expansion lookup uses, and what the children receive as
their parentKey. -/
theorem flattenTree_missing_key_spec (ex : ExpansionState) :
    (∀ (cs rest : TreeList) (level : Nat) (pk : Option String) (idx : Nat),
      flattenTree ex (.cons (TreeNode.mk none cs) rest) level pk idx =
        ⟨synthKey pk idx, level, pk, !cs.isEmpty, decide (some (synthKey pk idx) ∈ ex)⟩
          :: ((if !cs.isEmpty && decide (some (synthKey pk idx) ∈ ex)
                then flattenTree ex cs (level + 1) (some (synthKey pk idx)) 0
                else [])
              ++ flattenTree ex rest level pk (idx + 1)))
    ∧ (∀ (cs rest : TreeList) (level : Nat) (pk : Option String) (idx : Nat),
      flattenTree ex (.cons (TreeNode.mk (some "") cs) rest) level pk idx =
        ⟨synthKey pk idx, level, pk, !cs.isEmpty, decide (some (synthKey pk idx) ∈ ex)⟩
          :: ((if !cs.isEmpty && decide (some (synthKey pk idx) ∈ ex)
                then flattenTree ex cs (level + 1) (some (synthKey pk idx)) 0
                else [])
              ++ flattenTree ex rest level pk (idx + 1)))
    ∧ (∀ idx : Nat, synthKey none idx = "null" ++ "-" ++ toString idx)
    ∧ (∀ (p : String) (idx : Nat), synthKey (some p) idx = p ++ "-" ++ toString idx) :=
  ⟨fun _ _ _ _ _ => rfl, fun _ _ _ _ _ => rfl, fun _ => rfl, fun _ _ => rfl⟩

/-- getAllKeys (index.jsx 28-40): collects, in pre-order, the raw `key` of
every node that has at least one child; `traverse` descends only into
non-empty children arrays (which loses nothing, since leaves have none). -/
def getAllKeys : TreeList → List (Option String)
  | .nil => []
  | .cons (TreeNode.mk k cs) rest =>
    if !cs.isEmpty then k :: (getAllKeys cs ++ getAllKeys rest) else getAllKeys rest

/-- expandAll (index.jsx 44-47): `new Set(getAllKeys(data))`. -/
def expandAll (data : TreeList) : ExpansionState := (getAllKeys data).toFinset

/-- collapseAll (index.jsx 48-50): `new Set()`. -/
def collapseAll : ExpansionState := ∅

/-- Modelled from the spec: `k` is the key of some node, at any depth of the
forest, having at least one child (a branch node). -/
def isBranchKey (k : Option String) : TreeList → Bool
  | .nil => false
  | .cons (TreeNode.mk k0 cs) rest =>
    (decide (k0 = k) && !cs.isEmpty) || isBranchKey k cs || isBranchKey k rest

theorem mem_getAllKeys_iff :
    ∀ (t : TreeList) (k : Option String), k ∈ getAllKeys t ↔ isBranchKey k t = true
  | .nil, k => by simp [getAllKeys, isBranchKey]
  | .cons (TreeNode.mk k0 cs) rest, k => by
    have ihc := mem_getAllKeys_iff cs k
    have ihr := mem_getAllKeys_iff rest k
    cases cs with
    | nil =>
      simp [getAllKeys, isBranchKey, TreeList.isEmpty, ihr]
    | cons hd tl =>
      simp [getAllKeys, isBranchKey, TreeList.isEmpty, ihc, ihr]
      constructor
      · rintro (h | h | h)
        exacts [Or.inl (Or.inl h.symm), Or.inl (Or.inr h), Or.inr h]
      · rintro ((h | h) | h)
        exacts [Or.inl h.symm, Or.inr (Or.inl h), Or.inr (Or.inr h)]

/-- C5: after expandAll, the ExpansionState holds exactly the keys of nodes
with at least one child, at every depth (so, under the caller's key-uniqueness
contract, no leaf key is a member); after collapseAll it is empty. -/
theorem expandAll_spec (data : TreeList) :
    (∀ k : Option String, k ∈ expandAll data ↔ isBranchKey k data = true)
    ∧ collapseAll = (∅ : ExpansionState) :=
  ⟨fun k => by
    rw [expandAll, List.mem_toFinset]
    exact mem_getAllKeys_iff data k, rfl⟩

/-- HeightCache: the `nodeHeights`/`heightCacheRef` JS object, as an
association list whose first matching entry wins (assignment prepends). -/
abbrev HeightCache := List (String × Nat)

def lookupHeight : HeightCache → String → Option Nat
  | [], _ => none
  | (k, v) :: rest, key => if k = key then some v else lookupHeight rest key

/-- JS `nodeHeights[node.key] || itemMinHeight` (index.jsx 143): both a missing
entry (`undefined`) and a cached 0 are falsy and select the fallback. -/
def jsHeightOr : Option Nat → Nat → Nat
  | none, d => d
  | some v, d => if v = 0 then d else v

/-- PositionTable entry pushed by the positions useMemo (index.jsx 144-148). -/
structure Position where
  key : String
  top : Nat
  height : Nat
deriving Repr, DecidableEq

/-- The positions/totalHeight useMemo (index.jsx 138-156): a single forward
scan over the flattened rows; the second `Nat` argument is the running
`currentTop` accumulator (0 at the top-level call) and the returned `Nat` is
`totalHeight`, the final accumulator value. -/
def computeLayout (hc : String → Option Nat) (itemMinHeight : Nat) :
    List FlatRow → Nat → List Position × Nat
  | [], currentTop => ([], currentTop)
  | node :: rest, currentTop =>
    ((⟨node.key, currentTop, jsHeightOr (hc node.key) itemMinHeight⟩ : Position) ::
        (computeLayout hc itemMinHeight rest
          (currentTop + jsHeightOr (hc node.key) itemMinHeight)).1,
      (computeLayout hc itemMinHeight rest
        (currentTop + jsHeightOr (hc node.key) itemMinHeight)).2)

/-- Row i of a PositionTable (out-of-range reads give a dummy row). -/
def posAt (ps : List Position) (i : Nat) : Position := ps.getD i ⟨"", 0, 0⟩

/-- Key of row i of a flattened sequence. -/
def rowKeyAt (rows : List FlatRow) (i : Nat) : String :=
  (rows.getD i ⟨"", 0, none, false, false⟩).key

theorem computeLayout_map_key (hc : String → Option Nat) (m : Nat) :
    ∀ (rows : List FlatRow) (top : Nat),
      (computeLayout hc m rows top).1.map Position.key = rows.map FlatRow.key
  | [], _ => rfl
  | r :: rest, top => by
    simp [computeLayout, computeLayout_map_key hc m rest]

theorem computeLayout_length (hc : String → Option Nat) (m : Nat) :
    ∀ (rows : List FlatRow) (top : Nat),
      (computeLayout hc m rows top).1.length = rows.length
  | [], _ => rfl
  | r :: rest, top => by
    simp [computeLayout, computeLayout_length hc m rest]

theorem computeLayout_head_top (hc : String → Option Nat) (m : Nat) :
    ∀ (rows : List FlatRow) (top : Nat), rows ≠ [] →
      (posAt (computeLayout hc m rows top).1 0).top = top
  | [], _, h => absurd rfl h
  | _ :: _, _, _ => rfl

theorem computeLayout_adjacent (hc : String → Option Nat) (m : Nat) :
    ∀ (rows : List FlatRow) (top : Nat) (i : Nat), i + 1 < rows.length →
      (posAt (computeLayout hc m rows top).1 (i + 1)).top =
        (posAt (computeLayout hc m rows top).1 i).top +
          (posAt (computeLayout hc m rows top).1 i).height
  | [], _, i, h => by simp at h
  | r :: rest, top, 0, h => by
    have hne : rest ≠ [] := by
      cases rest with
      | nil => simp at h
      | cons a b => simp
    have := computeLayout_head_top hc m rest (top + jsHeightOr (hc r.key) m) hne
    simpa [computeLayout, posAt] using this
  | r :: rest, top, i + 1, h => by
    have hlt : i + 1 < rest.length := by simpa using h
    have := computeLayout_adjacent hc m rest (top + jsHeightOr (hc r.key) m) i hlt
    simpa [computeLayout, posAt] using this

theorem computeLayout_total (hc : String → Option Nat) (m : Nat) :
    ∀ (rows : List FlatRow) (top : Nat), rows ≠ [] →
      (computeLayout hc m rows top).2 =
        (posAt (computeLayout hc m rows top).1 (rows.length - 1)).top +
          (posAt (computeLayout hc m rows top).1 (rows.length - 1)).height
  | [], _, h => absurd rfl h
  | r :: rest, top, _ => by
    by_cases hne : rest = []
    · subst hne
      simp [computeLayout, posAt]
    · have ih := computeLayout_total hc m rest (top + jsHeightOr (hc r.key) m) hne
      have hlen : rest.length - 1 + 1 = rest.length :=
        Nat.succ_pred_eq_of_pos (List.length_pos.mpr hne)
      have h2 : (computeLayout hc m (r :: rest) top).2 =
          (computeLayout hc m rest (top + jsHeightOr (hc r.key) m)).2 := by
        simp [computeLayout]
      rw [h2, ih]
      have h1 : (r :: rest).length - 1 = rest.length := by simp
      rw [h1]
      conv_rhs => rw [← hlen]
      simp [computeLayout, posAt]

theorem computeLayout_height_at (hc : String → Option Nat) (m : Nat) :
    ∀ (rows : List FlatRow) (top : Nat) (i : Nat), i < rows.length →
      (posAt (computeLayout hc m rows top).1 i).height = jsHeightOr (hc (rowKeyAt rows i)) m
  | [], _, i, h => by simp at h
  | r :: rest, top, 0, _ => rfl
  | r :: rest, top, i + 1, h => by
    have hlt : i < rest.length := by simpa using h
    have := computeLayout_height_at hc m rest (top + jsHeightOr (hc r.key) m) i hlt
    simpa [computeLayout, posAt, rowKeyAt] using this

/-- The flattened rows of the spec scenario. -/
def demoRows : List FlatRow := flattenTree demoExpanded demoTree 0 none 0

/-- The spec scenario height cache {A:32, C:40, D:32}. -/
def demoHeights : HeightCache := [("A", 32), ("C", 40), ("D", 32)]

/-- C2 counterexample: the claim prescribes "each row's height is its cached
measured height or the minimum-height fallback when not yet measured", but for
a cached measured height of 0 (falsy in JS) the code uses the fallback: with
cache {A:0} and itemMinHeight 32 the produced row height is 32, not the cached
0. -/
theorem computeLayout_counterexample :
    lookupHeight [("A", 0)] "A" = some 0
    ∧ (computeLayout (lookupHeight [("A", 0)]) 32
        [⟨"A", 0, none, false, false⟩] 0).1.map Position.height = [32]
    ∧ (32 : Nat) ≠ 0 := by decide

/-- C2 (amended): the layout pass produces a PositionTable in the same row
order with `top[0] = 0`, `top[i+1] = top[i] + height[i]`, `totalHeight` equal
to the last row's top plus its height (0 when empty), where each row's height
is its cached measured height, or the minimum-height fallback when the cache
entry is missing (not yet measured) or 0 (falsy); heights {A:32, C:40, D:32}
over rows [A, C, D] yield tops {A:0, C:32, D:72} and totalHeight 104. -/
theorem computeLayout_spec (rows : List FlatRow) (hc : String → Option Nat) (m : Nat) :
    ((computeLayout hc m rows 0).1.map Position.key = rows.map FlatRow.key)
    ∧ (rows ≠ [] → (posAt (computeLayout hc m rows 0).1 0).top = 0)
    ∧ (∀ i : Nat, i + 1 < rows.length →
        (posAt (computeLayout hc m rows 0).1 (i + 1)).top =
          (posAt (computeLayout hc m rows 0).1 i).top +
            (posAt (computeLayout hc m rows 0).1 i).height)
    ∧ (rows = [] → (computeLayout hc m rows 0).2 = 0)
    ∧ (rows ≠ [] → (computeLayout hc m rows 0).2 =
        (posAt (computeLayout hc m rows 0).1 (rows.length - 1)).top +
          (posAt (computeLayout hc m rows 0).1 (rows.length - 1)).height)
    ∧ (∀ i : Nat, i < rows.length →
        (posAt (computeLayout hc m rows 0).1 i).height = jsHeightOr (hc (rowKeyAt rows i)) m)
    ∧ computeLayout (lookupHeight demoHeights) 32 demoRows 0 =
        ([⟨"A", 0, 32⟩, ⟨"C", 32, 40⟩, ⟨"D", 72, 32⟩], 104) :=
  ⟨computeLayout_map_key hc m rows 0,
   computeLayout_head_top hc m rows 0,
   computeLayout_adjacent hc m rows 0,
   fun h => by subst h; rfl,
   computeLayout_total hc m rows 0,
   computeLayout_height_at hc m rows 0,
   by decide⟩

/-- Witness for C2 at the spec scenario heights {A:32, C:40, D:32}. -/
theorem computeLayout_spec_witness :
    (posAt (computeLayout (lookupHeight demoHeights) 32 demoRows 0).1 0).top = 0
    ∧ (posAt (computeLayout (lookupHeight demoHeights) 32 demoRows 0).1 1).top =
        (posAt (computeLayout (lookupHeight demoHeights) 32 demoRows 0).1 0).top +
          (posAt (computeLayout (lookupHeight demoHeights) 32 demoRows 0).1 0).height
    ∧ (computeLayout (lookupHeight demoHeights) 32 demoRows 0).2 =
        (posAt (computeLayout (lookupHeight demoHeights) 32 demoRows 0).1 (demoRows.length - 1)).top +
          (posAt (computeLayout (lookupHeight demoHeights) 32 demoRows 0).1 (demoRows.length - 1)).height :=
  ⟨(computeLayout_spec demoRows (lookupHeight demoHeights) 32).2.1 (by decide),
   (computeLayout_spec demoRows (lookupHeight demoHeights) 32).2.2.1 0 (by decide),
   (computeLayout_spec demoRows (lookupHeight demoHeights) 32).2.2.2.2.1 (by decide)⟩

/-- updateNodeHeight (index.jsx 127-135): the returned Bool records whether a
state change (and hence a layout recomputation) was triggered; the guard
compares the cached value with strict JS `!==`. -/
def updateNodeHeight (cache : HeightCache) (key : String) (height : Nat) :
    HeightCache × Bool :=
  if lookupHeight cache key ≠ some height then ((key, height) :: cache, true)
  else (cache, false)

/-- C7: updateNodeHeight is idempotent — reporting the already-cached height
changes no state and leaves the PositionTable identical; a different (or first)
height updates the cache entry and triggers recomputation. -/
theorem updateNodeHeight_idempotent (cache : HeightCache) (key : String)
    (h m : Nat) (rows : List FlatRow) :
    (lookupHeight cache key = some h →
      updateNodeHeight cache key h = (cache, false)
      ∧ computeLayout (lookupHeight (updateNodeHeight cache key h).1) m rows 0 =
          computeLayout (lookupHeight cache) m rows 0)
    ∧ (lookupHeight cache key ≠ some h →
      (updateNodeHeight cache key h).2 = true
      ∧ lookupHeight (updateNodeHeight cache key h).1 key = some h) := by
  constructor
  · intro heq
    have hupd : updateNodeHeight cache key h = (cache, false) := by
      simp [updateNodeHeight, heq]
    exact ⟨hupd, by rw [hupd]⟩
  · intro hne
    have hupd : updateNodeHeight cache key h = ((key, h) :: cache, true) := by
      simp [updateNodeHeight, hne]
    rw [hupd]
    exact ⟨rfl, by simp [lookupHeight]⟩

/-- Witness for C7: re-reporting A's cached 32 is a no-op; reporting 40
updates the entry and triggers recomputation. -/
theorem updateNodeHeight_idempotent_witness :
    (updateNodeHeight [("A", 32)] "A" 32 = ([("A", 32)], false)
      ∧ computeLayout (lookupHeight (updateNodeHeight [("A", 32)] "A" 32).1) 32 demoRows 0 =
          computeLayout (lookupHeight [("A", 32)]) 32 demoRows 0)
    ∧ ((updateNodeHeight [("A", 32)] "A" 40).2 = true
      ∧ lookupHeight (updateNodeHeight [("A", 32)] "A" 40).1 "A" = some 40) :=
  ⟨(updateNodeHeight_idempotent [("A", 32)] "A" 32 32 demoRows).1 (by decide),
   (updateNodeHeight_idempotent [("A", 32)] "A" 40 32 demoRows).2 (by decide)⟩

/-- The {start, end} index range returned by the visibleRange useMemo. -/
structure VisibleRange where
  start : Nat
  «end» : Nat
deriving Repr, DecidableEq

/-- First loop of the visibleRange useMemo (index.jsx 176-182): the running
index of the first row whose bottom edge `top + height` reaches `viewportTop`;
`none` when the loop never breaks. -/
def scanStart : List Position → Nat → Nat → Option Nat
  | [], _, _ => none
  | p :: rest, viewportTop, i =>
    if viewportTop ≤ p.top + p.height then some i else scanStart rest viewportTop (i + 1)

/-- Second loop of the visibleRange useMemo (index.jsx 185-191): the running
index of the first row whose top edge exceeds `viewportBottom`. -/
def scanStop : List Position → Nat → Nat → Option Nat
  | [], _, _ => none
  | p :: rest, viewportBottom, i =>
    if viewportBottom < p.top then some i else scanStop rest viewportBottom (i + 1)

/-- The `start` value after the first loop: `Math.max(0, i - overscan)` on a
break (truncated subtraction is exactly the clamp at 0), 0 when the loop never
breaks. -/
def startIndexOf (positions : List Position) (viewportTop overscan : Nat) : Nat :=
  match scanStart positions viewportTop 0 with
  | some i => i - overscan
  | none => 0

/-- visibleRange (index.jsx 159-194).  `containerMeasurable` models whether
`containerRef.current` is set; `viewportTop = Math.max(0, -rect.top)` and
`viewportHeight = window.innerHeight` are taken as inputs. -/
def visibleRange (positions : List Position) (containerMeasurable : Bool)
    (viewportTop viewportHeight overscan : Nat) : VisibleRange :=
  if positions.length = 0 then ⟨0, 0⟩
  else if containerMeasurable = false then ⟨0, min 20 (positions.length - 1)⟩
  else
    match scanStop (positions.drop (startIndexOf positions viewportTop overscan))
        (viewportTop + viewportHeight) (startIndexOf positions viewportTop overscan) with
    | some j =>
      ⟨startIndexOf positions viewportTop overscan, min (positions.length - 1) (j + overscan)⟩
    | none => ⟨startIndexOf positions viewportTop overscan, positions.length - 1⟩

/-- The `flattenedData.slice(start, end + 1)` of visibleNodes (index.jsx 198):
the rows the range actually covers. -/
def visibleSlice (rows : List FlatRow) (r : VisibleRange) : List FlatRow :=
  (rows.drop r.start).take (r.«end» + 1 - r.start)

theorem getD_drop {α : Type} :
    ∀ (n : Nat) (l : List α) (k : Nat) (d : α), (l.drop n).getD k d = l.getD (n + k) d
  | 0, l, k, d => by simp
  | n + 1, [], k, d => by simp
  | n + 1, a :: t, k, d => by
    rw [List.drop_succ_cons, getD_drop n t k d, Nat.succ_add, List.getD_cons_succ]

theorem scanStart_bounds :
    ∀ (l : List Position) (v i0 j : Nat), scanStart l v i0 = some j →
      i0 ≤ j ∧ j < i0 + l.length
  | [], v, i0, j, h => by simp [scanStart] at h
  | p :: rest, v, i0, j, h => by
    rw [scanStart] at h
    by_cases hp : v ≤ p.top + p.height
    · rw [if_pos hp] at h
      injection h with h
      subst h
      simp
    · rw [if_neg hp] at h
      have := scanStart_bounds rest v (i0 + 1) j h
      constructor <;> [omega; (simp only [List.length_cons]; omega)]

theorem scanStart_mono :
    ∀ (l : List Position) (t1 t2 i0 j : Nat), t1 ≤ t2 → scanStart l t2 i0 = some j →
      ∃ k, scanStart l t1 i0 = some k ∧ k ≤ j
  | [], t1, t2, i0, j, _, h => by simp [scanStart] at h
  | p :: rest, t1, t2, i0, j, h12, h => by
    by_cases hp2 : t2 ≤ p.top + p.height
    · rw [scanStart, if_pos hp2] at h
      injection h with h
      subst h
      exact ⟨i0, by rw [scanStart, if_pos (le_trans h12 hp2)], le_refl i0⟩
    · rw [scanStart, if_neg hp2] at h
      by_cases hp1 : t1 ≤ p.top + p.height
      · refine ⟨i0, by rw [scanStart, if_pos hp1], ?_⟩
        have := (scanStart_bounds rest t2 (i0 + 1) j h).1
        omega
      · obtain ⟨k, hk, hkj⟩ := scanStart_mono rest t1 t2 (i0 + 1) j h12 h
        exact ⟨k, by rw [scanStart, if_neg hp1]; exact hk, hkj⟩

theorem scanStart_of_exists :
    ∀ (l : List Position) (v i0 : Nat), (∃ p ∈ l, v ≤ p.top + p.height) →
      ∃ j, scanStart l v i0 = some j
  | [], v, i0, h => by
    obtain ⟨p, hp, _⟩ := h
    simp at hp
  | p :: rest, v, i0, h => by
    by_cases hp : v ≤ p.top + p.height
    · exact ⟨i0, by rw [scanStart, if_pos hp]⟩
    · obtain ⟨q, hq, hvq⟩ := h
      rcases List.mem_cons.mp hq with h1 | h1
      · subst h1
        exact absurd hvq hp
      · obtain ⟨j, hj⟩ := scanStart_of_exists rest v (i0 + 1) ⟨q, h1, hvq⟩
        exact ⟨j, by rw [scanStart, if_neg hp]; exact hj⟩

theorem scanStart_first :
    ∀ (l : List Position) (v i0 j : Nat), j < l.length →
      v ≤ (posAt l j).top + (posAt l j).height →
      (∀ m, m < j → (posAt l m).top + (posAt l m).height < v) →
      scanStart l v i0 = some (i0 + j)
  | [], v, i0, j, hj, _, _ => by simp at hj
  | p :: rest, v, i0, 0, _, hv, _ => by
    rw [scanStart, if_pos (by simpa [posAt] using hv), Nat.add_zero]
  | p :: rest, v, i0, j + 1, hj, hv, hmin => by
    have hp : ¬ v ≤ p.top + p.height := by
      have := hmin 0 (Nat.succ_pos j)
      simp only [posAt, List.getD_cons_zero] at this
      omega
    rw [scanStart, if_neg hp]
    have heq : i0 + (j + 1) = i0 + 1 + j := by omega
    rw [heq]
    exact scanStart_first rest v (i0 + 1) j (by simpa using hj)
      (by simpa [posAt] using hv)
      (fun m hm => by simpa [posAt] using hmin (m + 1) (by omega))

theorem scanStop_ge :
    ∀ (l : List Position) (v i0 j : Nat), scanStop l v i0 = some j → i0 ≤ j
  | [], v, i0, j, h => by simp [scanStop] at h
  | p :: rest, v, i0, j, h => by
    rw [scanStop] at h
    by_cases hp : v < p.top
    · rw [if_pos hp] at h
      injection h with h
      omega
    · rw [if_neg hp] at h
      have := scanStop_ge rest v (i0 + 1) j h
      omega

theorem scanStop_first :
    ∀ (l : List Position) (v i0 j : Nat), j < l.length →
      v < (posAt l j).top →
      (∀ m, m < j → (posAt l m).top ≤ v) →
      scanStop l v i0 = some (i0 + j)
  | [], v, i0, j, hj, _, _ => by simp at hj
  | p :: rest, v, i0, 0, _, hv, _ => by
    rw [scanStop, if_pos (by simpa [posAt] using hv), Nat.add_zero]
  | p :: rest, v, i0, j + 1, hj, hv, hmin => by
    have hp : ¬ v < p.top := by
      have := hmin 0 (Nat.succ_pos j)
      simp only [posAt, List.getD_cons_zero] at this
      omega
    rw [scanStop, if_neg hp]
    have heq : i0 + (j + 1) = i0 + 1 + j := by omega
    rw [heq]
    exact scanStop_first rest v (i0 + 1) j (by simpa using hj)
      (by simpa [posAt] using hv)
      (fun m hm => by simpa [posAt] using hmin (m + 1) (by omega))

theorem scanStop_none :
    ∀ (l : List Position) (v i0 : Nat),
      (∀ m, m < l.length → (posAt l m).top ≤ v) → scanStop l v i0 = none
  | [], _, _, _ => rfl
  | p :: rest, v, i0, hall => by
    have h0 : ¬ v < p.top := by
      have := hall 0 (by simp)
      simp only [posAt, List.getD_cons_zero] at this
      omega
    rw [scanStop, if_neg h0]
    exact scanStop_none rest v (i0 + 1)
      (fun m hm => by simpa [posAt] using hall (m + 1) (by simpa using Nat.succ_lt_succ hm))

theorem visibleRange_start_eq (ps : List Position) (vt vh ov : Nat) (h : 0 < ps.length) :
    (visibleRange ps true vt vh ov).start = startIndexOf ps vt ov := by
  unfold visibleRange
  rw [if_neg (by omega), if_neg (by simp)]
  rcases hs : scanStop (ps.drop (startIndexOf ps vt ov)) (vt + vh) (startIndexOf ps vt ov)
      with _ | j <;>
    simp [hs]

theorem startIndexOf_le (ps : List Position) (vt ov : Nat) (h : 0 < ps.length) :
    startIndexOf ps vt ov ≤ ps.length - 1 := by
  unfold startIndexOf
  rcases hs : scanStart ps vt 0 with _ | i
  · simp [hs]
  · simp only [hs]
    have := scanStart_bounds ps vt 0 i hs
    omega

/-- The 2-row PositionTable of the monotonicity counterexample. -/
def psMono : List Position := [⟨"x", 0, 10⟩, ⟨"y", 10, 10⟩]

/-- C3 counterexample: start is NOT monotone in viewportTop.  With rows at
tops 0 and 10 (heights 10) and overscan 0, viewportTop 15 selects start 1, but
viewportTop 25 lies below every row's bottom edge, the first loop never
breaks, and start falls back to 0 < 1. -/
theorem visibleRange_monotone_counterexample :
    (15 : Nat) ≤ 25
    ∧ (visibleRange psMono true 15 5 0).start = 1
    ∧ (visibleRange psMono true 25 5 0).start = 0 := by decide

/-- C3 (amended): increasing viewportTop never decreases start, provided the
larger offset still reaches some row's bottom edge (the code resets start to 0
once the viewport is scrolled past the bottom of the whole content); and for
every input the returned range satisfies start ≤ end ≤ count-1 (start ≥ 0 is
automatic for naturals), or start = end = 0 when count is 0. -/
theorem visibleRange_monotone (ps : List Position) (vh ov t1 t2 : Nat) :
    (t1 ≤ t2 → (∃ p ∈ ps, t2 ≤ p.top + p.height) →
      (visibleRange ps true t1 vh ov).start ≤ (visibleRange ps true t2 vh ov).start)
    ∧ (∀ (c : Bool) (vt : Nat),
        (ps.length = 0 → visibleRange ps c vt vh ov = ⟨0, 0⟩)
        ∧ (0 < ps.length →
            (visibleRange ps c vt vh ov).start ≤ (visibleRange ps c vt vh ov).«end»
            ∧ (visibleRange ps c vt vh ov).«end» ≤ ps.length - 1)) := by
  constructor
  · intro h12 hex
    have hlen : 0 < ps.length := by
      obtain ⟨p, hp, _⟩ := hex
      exact List.length_pos.mpr (List.ne_nil_of_mem hp)
    obtain ⟨j, hj⟩ := scanStart_of_exists ps t2 0 hex
    obtain ⟨k, hk, hkj⟩ := scanStart_mono ps t1 t2 0 j h12 hj
    rw [visibleRange_start_eq ps t1 vh ov hlen, visibleRange_start_eq ps t2 vh ov hlen]
    unfold startIndexOf
    rw [hj, hk]
    simp only
    omega
  · intro c vt
    refine ⟨fun h0 => by unfold visibleRange; rw [if_pos h0], fun hlen => ?_⟩
    cases c with
    | false =>
      unfold visibleRange
      rw [if_neg (by omega), if_pos rfl]
      exact ⟨Nat.zero_le _, Nat.min_le_right 20 (ps.length - 1)⟩
    | true =>
      have hstart_le := startIndexOf_le ps vt ov hlen
      unfold visibleRange
      rw [if_neg (by omega), if_neg (by simp)]
      rcases hs : scanStop (ps.drop (startIndexOf ps vt ov)) (vt + vh) (startIndexOf ps vt ov)
          with _ | j
      · simp only
        exact ⟨hstart_le, le_refl _⟩
      · have hge := scanStop_ge _ _ _ _ hs
        simp only
        omega

/-- Witness for C3: monotone starts on the counterexample table while the
viewport still intersects it, plus the range bounds at concrete inputs. -/
theorem visibleRange_monotone_witness :
    ((10 : Nat) ≤ 12 ∧ ∃ p ∈ psMono, 12 ≤ p.top + p.height)
    ∧ (visibleRange psMono true 10 5 0).start ≤ (visibleRange psMono true 12 5 0).start
    ∧ visibleRange ([] : List Position) true 0 0 0 = ⟨0, 0⟩
    ∧ ((visibleRange psMono true 7 5 0).start ≤ (visibleRange psMono true 7 5 0).«end»
        ∧ (visibleRange psMono true 7 5 0).«end» ≤ psMono.length - 1) :=
  ⟨⟨by decide, by decide⟩,
   (visibleRange_monotone psMono 5 0 10 12).1 (by decide) (by decide),
   ((visibleRange_monotone ([] : List Position) 0 0 0 0).2 true 0).1 rfl,
   ((visibleRange_monotone psMono 5 0 0 0).2 true 7).2 (by decide)⟩

/-- Specification of the first loop's break index: i is the first row whose
bottom edge `top + height` reaches viewportTop. -/
@[reducible] def IsFirstStartIdx (ps : List Position) (viewportTop i : Nat) : Prop :=
  i < ps.length
  ∧ viewportTop ≤ (posAt ps i).top + (posAt ps i).height
  ∧ ∀ j, j < i → (posAt ps j).top + (posAt ps j).height < viewportTop

/-- Specification of the second loop's break index: scanning from `start`, j
is the first row whose top edge exceeds viewportBottom. -/
@[reducible] def IsFirstStopIdx (ps : List Position) (start viewportBottom i : Nat) : Prop :=
  start ≤ i ∧ i < ps.length
  ∧ viewportBottom < (posAt ps i).top
  ∧ ∀ j, j < i → (start ≤ j → (posAt ps j).top ≤ viewportBottom)

/-- The PositionTable of the spec scenario (tops 0/32/72, heights 32/40/32). -/
def demoPositions : List Position := [⟨"A", 0, 32⟩, ⟨"C", 32, 40⟩, ⟨"D", 72, 32⟩]

/-- C4 counterexample: the claim says an unmeasurable container yields "the
range covering the first min(20, count-1) row indices", but the code returns
{start: 0, end: min(20, count-1)} with an INCLUSIVE end, which covers
min(20, count-1) + 1 indices: for the 3-row table the covered slice has 3
rows, not min(20, 2) = 2. -/
theorem visibleRange_unmeasurable_counterexample :
    visibleRange demoPositions false 0 0 0 = ⟨0, 2⟩
    ∧ (visibleSlice demoRows (visibleRange demoPositions false 0 0 0)).length = 3
    ∧ min 20 (demoPositions.length - 1) = 2
    ∧ (3 : Nat) ≠ 2 := by decide

/-- C4 (amended): start is the first index whose bottom edge `top + height`
reaches viewportTop, minus overscan clamped at 0; end, scanning from start, is
the first index whose top edge exceeds viewportBottom, plus overscan clamped
at the last index, defaulting to the last index when no such row exists; an
empty PositionTable yields the range {0, 0} whose covered slice is empty; an
unmeasurable container yields {start: 0, end: min(20, count-1)} with an
inclusive end index (covering the first min(20, count-1) + 1 row indices). -/
theorem visibleRange_spec (ps : List Position) (vt vh ov : Nat) :
    (ps.length = 0 → visibleRange ps true vt vh ov = ⟨0, 0⟩
      ∧ visibleSlice [] (visibleRange ps true vt vh ov) = [])
    ∧ (0 < ps.length → ∀ c : Bool, c = false →
        visibleRange ps c vt vh ov = ⟨0, min 20 (ps.length - 1)⟩)
    ∧ (∀ i, IsFirstStartIdx ps vt i → (visibleRange ps true vt vh ov).start = i - ov)
    ∧ (∀ i j, IsFirstStartIdx ps vt i → IsFirstStopIdx ps (i - ov) (vt + vh) j →
        (visibleRange ps true vt vh ov).«end» = min (ps.length - 1) (j + ov))
    ∧ (∀ i, IsFirstStartIdx ps vt i →
        (∀ j, j < ps.length → (i - ov ≤ j → (posAt ps j).top ≤ vt + vh)) →
        (visibleRange ps true vt vh ov).«end» = ps.length - 1) := by
  refine ⟨fun h0 => ⟨by unfold visibleRange; rw [if_pos h0], by simp [visibleSlice]⟩,
    fun hlen c hc => ?_, fun i h1 => ?_, fun i j h1 h2 => ?_, fun i h1 hall => ?_⟩
  · subst hc
    unfold visibleRange
    rw [if_neg (by omega), if_pos rfl]
  · obtain ⟨hi, hv, hmin⟩ := h1
    have hscan : scanStart ps vt 0 = some i := by
      simpa using scanStart_first ps vt 0 i hi hv hmin
    rw [visibleRange_start_eq ps vt vh ov (by omega)]
    unfold startIndexOf
    rw [hscan]
  · obtain ⟨hi, hv, hmin⟩ := h1
    obtain ⟨hsj, hj, hvj, hjall⟩ := h2
    have hscan : scanStart ps vt 0 = some i := by
      simpa using scanStart_first ps vt 0 i hi hv hmin
    have hstart : startIndexOf ps vt ov = i - ov := by
      unfold startIndexOf
      rw [hscan]
    have hjs : (i - ov) + (j - (i - ov)) = j := by omega
    have h1' : j - (i - ov) < (ps.drop (i - ov)).length := by
      rw [List.length_drop]
      omega
    have h2' : vt + vh < (posAt (ps.drop (i - ov)) (j - (i - ov))).top := by
      unfold posAt
      rw [getD_drop, hjs]
      exact hvj
    have h3' : ∀ m, m < j - (i - ov) → (posAt (ps.drop (i - ov)) m).top ≤ vt + vh := by
      intro m hm
      unfold posAt
      rw [getD_drop]
      exact hjall ((i - ov) + m) (by omega) (by omega)
    have hstop : scanStop (ps.drop (i - ov)) (vt + vh) (i - ov) = some j := by
      have := scanStop_first (ps.drop (i - ov)) (vt + vh) (i - ov) (j - (i - ov)) h1' h2' h3'
      rwa [hjs] at this
    unfold visibleRange
    rw [if_neg (by omega), if_neg (by simp), hstart, hstop]
  · obtain ⟨hi, hv, hmin⟩ := h1
    have hscan : scanStart ps vt 0 = some i := by
      simpa using scanStart_first ps vt 0 i hi hv hmin
    have hstart : startIndexOf ps vt ov = i - ov := by
      unfold startIndexOf
      rw [hscan]
    have hstop : scanStop (ps.drop (i - ov)) (vt + vh) (i - ov) = none := by
      apply scanStop_none
      intro m hm
      rw [List.length_drop] at hm
      unfold posAt
      rw [getD_drop]
      exact hall ((i - ov) + m) (by omega) (by omega)
    unfold visibleRange
    rw [if_neg (by omega), if_neg (by simp), hstart, hstop]

/-- Witness for C4 on the 3-row scenario table: viewportTop 35 and height 30
give first-start index 1 (start 0 after overscan 1) and first-stop index 2
(end min(2, 3) = 2); with a tall viewport the stop loop never breaks and end
defaults to the last index; the unmeasurable and empty cases are included. -/
theorem visibleRange_spec_witness :
    IsFirstStartIdx demoPositions 35 1
    ∧ IsFirstStopIdx demoPositions (1 - 1) (35 + 30) 2
    ∧ (visibleRange demoPositions true 35 30 1).start = 1 - 1
    ∧ (visibleRange demoPositions true 35 30 1).«end» = min (demoPositions.length - 1) (2 + 1)
    ∧ (visibleRange demoPositions true 0 200 1).«end» = demoPositions.length - 1
    ∧ visibleRange demoPositions false 35 30 1 = ⟨0, min 20 (demoPositions.length - 1)⟩
    ∧ visibleRange ([] : List Position) true 35 30 1 = ⟨0, 0⟩ :=
  ⟨by decide, by decide,
   (visibleRange_spec demoPositions 35 30 1).2.2.1 1 (by decide),
   (visibleRange_spec demoPositions 35 30 1).2.2.2.1 1 2 (by decide) (by decide),
   (visibleRange_spec demoPositions 0 200 1).2.2.2.2 0 (by decide) (by decide),
   (visibleRange_spec demoPositions 35 30 1).2.1 (by decide) false rfl,
   ((visibleRange_spec ([] : List Position) 35 30 1).1 rfl).1⟩

/-- toggleExpand (index.jsx 110-124): flips the key's membership in the
expandedKeys Set and fires `onNodeExpand(key, !expandedKeys.has(key))`; the
notification is returned as the (key, newExpandedFlag) pair. -/
def toggleExpand (ex : ExpansionState) (key : String) : ExpansionState × (String × Bool) :=
  (if some key ∈ ex then ex.erase (some key) else insert (some key) ex,
   (key, !decide (some key ∈ ex)))

/-- handleExpandClick (TreeNode.jsx 55-60): the Row Renderer only calls
toggleExpand when the row has children; `none` models that no notification is
fired and no state change is proposed. -/
def handleExpandClick (hasChildren : Bool) (ex : ExpansionState) (key : String) :
    ExpansionState × Option (String × Bool) :=
  if hasChildren then ((toggleExpand ex key).1, some (toggleExpand ex key).2)
  else (ex, none)

/-- C6: toggleExpand flips exactly the given key's membership (all other keys
keep their status) and notifies the caller with the key and the new flag,
true exactly when the key was not previously expanded; on a row without
children the click handler leaves the state unchanged and fires nothing. -/
theorem toggleExpand_spec (ex : ExpansionState) (key : String) :
    (∀ k : Option String, k ∈ (toggleExpand ex key).1 ↔
        (if k = some key then some key ∉ ex else k ∈ ex))
    ∧ (toggleExpand ex key).2 = (key, decide (some key ∉ ex))
    ∧ (∀ (ex2 : ExpansionState) (k2 : String), handleExpandClick false ex2 k2 = (ex2, none)) := by
  refine ⟨fun k => ?_, by simp [toggleExpand], fun ex2 k2 => rfl⟩
  by_cases hm : some key ∈ ex <;> by_cases hk : k = some key <;>
    simp [toggleExpand, hm, hk, Finset.mem_erase, Finset.mem_insert]

/-- Drop position relative to the hovered row. -/
inductive DropPosition where
  | before
  | after
  | inside
deriving Repr, DecidableEq

/-- The drop-intent notification object `{dragNode, dropNode, position}`
passed to the caller's onDrop. -/
structure DropIntent where
  dragNode : FlatRow
  dropNode : FlatRow
  position : DropPosition
deriving Repr, DecidableEq

/-- DragSession state (index.jsx 20-25). -/
structure DragState where
  dragging : Bool
  dragNode : Option FlatRow
  dropPosition : Option DropPosition
  dropNode : Option FlatRow
deriving Repr, DecidableEq

/-- The reset session written after every terminal drag event. -/
def idleDragState : DragState := ⟨false, none, none, none⟩

/-- handleDrop (index.jsx 252-284): returns the new DragSession and the list
of drop-intent notifications delivered to onDrop (the engine touches no tree
data: neither a tree snapshot is consumed nor produced here). -/
def handleDrop (draggable : Bool) (st : DragState) (dropNode : FlatRow)
    (position : DropPosition) : DragState × List DropIntent :=
  match draggable, st.dragNode with
  | true, some dragNode =>
    if dragNode.key = dropNode.key then (idleDragState, [])
    else (idleDragState, [⟨dragNode, dropNode, position⟩])
  | _, _ => (st, [])

/-- C8: with a recorded dragNode, dropping on a row with the same key emits no
drop intent and resets the session to Idle; dropping on any other key emits
the {dragNode, dropNode, position} intent exactly once and resets to Idle. -/
theorem handleDrop_spec (st : DragState) (dn dropN : FlatRow) (pos : DropPosition) :
    st.dragNode = some dn →
    ((dn.key = dropN.key → handleDrop true st dropN pos = (idleDragState, []))
      ∧ (dn.key ≠ dropN.key →
          handleDrop true st dropN pos = (idleDragState, [⟨dn, dropN, pos⟩]))) := by
  intro hdn
  unfold handleDrop
  rw [hdn]
  simp only
  constructor
  · intro heq
    rw [if_pos heq]
  · intro hne
    rw [if_neg hne]

/-- Witness for C8: dragging B onto C with position before emits exactly one
intent {B, C, before} and resets to Idle; dropping B onto itself emits nothing
and resets to Idle. -/
theorem handleDrop_spec_witness :
    handleDrop true ⟨true, some ⟨"B", 0, none, false, false⟩, none, none⟩
        ⟨"C", 0, none, true, true⟩ .before =
      (idleDragState, [⟨⟨"B", 0, none, false, false⟩, ⟨"C", 0, none, true, true⟩, .before⟩])
    ∧ handleDrop true ⟨true, some ⟨"B", 0, none, false, false⟩, none, none⟩
        ⟨"B", 0, none, false, false⟩ .before = (idleDragState, []) :=
  ⟨(handleDrop_spec ⟨true, some ⟨"B", 0, none, false, false⟩, none, none⟩
      ⟨"B", 0, none, false, false⟩ ⟨"C", 0, none, true, true⟩ .before rfl).2 (by decide),
   (handleDrop_spec ⟨true, some ⟨"B", 0, none, false, false⟩, none, none⟩
      ⟨"B", 0, none, false, false⟩ ⟨"B", 0, none, false, false⟩ .before rfl).1 rfl⟩

/-- The quartile classification inside TreeNode.jsx handleDragOver (74-85):
`offsetY = clientY - rect.top` and `height = rect.height` as exact rationals;
`0.25` and `0.75` are the exact constants of the source. -/
def classifyDropPos (offsetY height : ℚ) : DropPosition :=
  if offsetY < height * (1 / 4) then .before
  else if offsetY > height * (3 / 4) then .after
  else .inside

/-- Engine handleDragOver (index.jsx 227-238): only while Dragging (and with
dragging enabled) does it record dropNode/dropPosition; nothing else of the
session changes and no tree state is involved. -/
def handleDragOver (draggable : Bool) (st : DragState) (node : FlatRow)
    (position : DropPosition) : DragState :=
  if draggable && st.dragging then
    { st with dropPosition := some position, dropNode := some node }
  else st

/-- C9: the pointer offset within a (non-negatively tall) hovered row is
classified before in the top quartile, after in the bottom quartile, inside in
the middle half; the engine's dragOver is a no-op unless the session is
Dragging, and while Dragging it updates only dropNode/dropPosition, leaving
dragging and dragNode untouched (no tree data is read or written). -/
theorem dragOver_spec (offsetY height : ℚ) (st : DragState) (node : FlatRow)
    (pos : DropPosition) (dr : Bool) :
    (offsetY < height * (1 / 4) → classifyDropPos offsetY height = .before)
    ∧ (0 ≤ height → height * (3 / 4) < offsetY → classifyDropPos offsetY height = .after)
    ∧ (height * (1 / 4) ≤ offsetY → offsetY ≤ height * (3 / 4) →
        classifyDropPos offsetY height = .inside)
    ∧ (st.dragging = false → handleDragOver dr st node pos = st)
    ∧ (st.dragging = true →
        (handleDragOver true st node pos).dragging = st.dragging
        ∧ (handleDragOver true st node pos).dragNode = st.dragNode
        ∧ (handleDragOver true st node pos).dropNode = some node
        ∧ (handleDragOver true st node pos).dropPosition = some pos) := by
  refine ⟨fun h1 => ?_, fun hh h2 => ?_, fun h3 h4 => ?_, fun hidle => ?_, fun hdrag => ?_⟩
  · rw [classifyDropPos, if_pos h1]
  · have hnb : ¬ offsetY < height * (1 / 4) := by nlinarith
    rw [classifyDropPos, if_neg hnb, if_pos h2]
  · have hnb : ¬ offsetY < height * (1 / 4) := not_lt.mpr h3
    have hna : ¬ offsetY > height * (3 / 4) := not_lt.mpr h4
    rw [classifyDropPos, if_neg hnb, if_neg hna]
  · unfold handleDragOver
    rw [hidle]
    simp
  · unfold handleDragOver
    rw [hdrag]
    simp

/-- Witness for C9 on a 32-pixel row: offsets 2, 30 and 16 classify as before,
after and inside; a non-dragging session ignores dragOver; a dragging session
records dropNode/dropPosition only. -/
theorem dragOver_spec_witness :
    classifyDropPos 2 32 = .before
    ∧ classifyDropPos 30 32 = .after
    ∧ classifyDropPos 16 32 = .inside
    ∧ handleDragOver true idleDragState ⟨"C", 0, none, true, true⟩ .before = idleDragState
    ∧ ((handleDragOver true ⟨true, some ⟨"B", 0, none, false, false⟩, none, none⟩
          ⟨"C", 0, none, true, true⟩ .before).dragging = true
        ∧ (handleDragOver true ⟨true, some ⟨"B", 0, none, false, false⟩, none, none⟩
            ⟨"C", 0, none, true, true⟩ .before).dragNode = some ⟨"B", 0, none, false, false⟩
        ∧ (handleDragOver true ⟨true, some ⟨"B", 0, none, false, false⟩, none, none⟩
            ⟨"C", 0, none, true, true⟩ .before).dropNode = some ⟨"C", 0, none, true, true⟩
        ∧ (handleDragOver true ⟨true, some ⟨"B", 0, none, false, false⟩, none, none⟩
            ⟨"C", 0, none, true, true⟩ .before).dropPosition = some DropPosition.before) :=
  ⟨(dragOver_spec 2 32 idleDragState ⟨"C", 0, none, true, true⟩ .before true).1
      (by norm_num),
   (dragOver_spec 30 32 idleDragState ⟨"C", 0, none, true, true⟩ .before true).2.1
      (by norm_num) (by norm_num),
   (dragOver_spec 16 32 idleDragState ⟨"C", 0, none, true, true⟩ .before true).2.2.1
      (by norm_num) (by norm_num),
   (dragOver_spec 0 32 idleDragState ⟨"C", 0, none, true, true⟩ .before true).2.2.2.1 rfl,
   (dragOver_spec 0 32 ⟨true, some ⟨"B", 0, none, false, false⟩, none, none⟩
      ⟨"C", 0, none, true, true⟩ .before true).2.2.2.2 rfl⟩

end VTree
